import Mathlib

/-!
A shallow embedding of the palette subsystem (`wgpu-mc-jni/src/palette.rs`)
and of the legacy command-buffer replay engine
(`wgpu-mc-jni/src/gl/pipeline.rs`) of the wgpu-mc repository, together with
proofs about the properties its specification states.

Conventions of the embedding:
* Java/JNI object handles (`GlobalRef`) are opaque tokens, modelled as `Nat`.
* Machine integers are modelled as their bit patterns in `Nat`
  (a `u32`/`i32` is a `Nat < 2 ^ 32`; casts like `as u16` become `&&& 0xFFFF`).
* `HashMap` insertion is modelled by consing onto an association list whose
  lookup takes the first (i.e. most recent) match; this is observationally
  the overwrite semantics of `HashMap::insert`.
* Functions that can `panic!`/`unwrap` on the relevant path return `Option`,
  `none` standing for the fatal abort.
-/

/-- Opaque host-side object handle (`jni::objects::GlobalRef`). -/
abbrev GlobalRef := Nat

/-- Compact native block-state identifier (`wgpu_mc::mc::block::BlockstateKey`):
a base block registry index and a variant/augment index, both `u16`. -/
structure BlockstateKey where
  block : Nat
  augment : Nat
deriving DecidableEq, Repr

/-- Lookup in the association-list model of `HashMap<BlockstateKey, usize>`:
first match wins, so a consed entry shadows (overwrites) older ones. -/
def lookupKey : List (BlockstateKey × Nat) → BlockstateKey → Option Nat
  | [], _ => none
  | (k, v) :: rest, key => if k = key then some v else lookupKey rest key

/-- Model of `HashMap::insert` (overwrite): cons, given first-match lookup. -/
def insertKey (m : List (BlockstateKey × Nat)) (k : BlockstateKey) (v : Nat) :
    List (BlockstateKey × Nat) :=
  (k, v) :: m

/-- The palette (`JavaPalette` in `palette.rs`): an ordered store of
(host handle, block-state key) pairs, a reverse index from key to position,
and the handle of the id list it was built against. -/
structure JavaPalette where
  store : List (GlobalRef × BlockstateKey)
  indices : List (BlockstateKey × Nat)
  id_list : Nat
deriving DecidableEq, Repr

/-- Construct an empty palette bound to an id list (`JavaPalette::new`). -/
def JavaPalette.new (idList : Nat) : JavaPalette :=
  { store := [], indices := [], id_list := idList }

/-- Deduplicating insert (`JavaPalette::index`): if the key is already
indexed return its recorded position, otherwise append the element, record
its position and return it.  Returns the (possibly updated) palette and the
position. -/
def JavaPalette.index (p : JavaPalette) (element : GlobalRef × BlockstateKey) :
    JavaPalette × Nat :=
  match lookupKey p.indices element.2 with
  | none =>
      ({ store := p.store ++ [element],
         indices := insertKey p.indices element.2 p.store.length,
         id_list := p.id_list }, p.store.length)
  | some i => (p, i)

/-- Unconditional append (`JavaPalette::add`): always pushes the element and
(re)points the index entry for its key at the new position. -/
def JavaPalette.add (p : JavaPalette) (element : GlobalRef × BlockstateKey) :
    JavaPalette :=
  { store := p.store ++ [element],
    indices := insertKey p.indices element.2 p.store.length,
    id_list := p.id_list }

/-- Number of entries (`JavaPalette::size`). -/
def JavaPalette.size (p : JavaPalette) : Nat :=
  p.store.length

/-- Positional query (`JavaPalette::get`):
`self.store.get(index).or_else(|| self.store.get(0))`. -/
def JavaPalette.get (p : JavaPalette) (index : Nat) :
    Option (GlobalRef × BlockstateKey) :=
  (p.store[index]?).orElse fun _ => p.store[0]?

/-- Empty the store and the reverse index in place (`JavaPalette::clear`). -/
def JavaPalette.clear (p : JavaPalette) : JavaPalette :=
  { store := [], indices := [], id_list := p.id_list }

/-- Fold a list of `index` calls over a palette, keeping only the palette
(the sequence of calls a host makes while assigning palette codes). -/
def indexAll (p : JavaPalette) (es : List (GlobalRef × BlockstateKey)) :
    JavaPalette :=
  es.foldl (fun q e => (q.index e).1) p

/-- Fold a list of `add` calls over a palette (the bulk-append pattern used
by packet decoding). -/
def addAll (p : JavaPalette) (es : List (GlobalRef × BlockstateKey)) :
    JavaPalette :=
  es.foldl JavaPalette.add p

/-- Extend an accumulator by the keys of a list that are not yet present,
in order of first appearance (the key sequence a run of deduplicating
`index` calls lays down in the store). -/
def distinctAppend (acc : List BlockstateKey) (ks : List BlockstateKey) :
    List BlockstateKey :=
  ks.foldl (fun a k => if k ∈ a then a else a ++ [k]) acc

/-- Index of the first occurrence of a key in a list, if any. -/
def firstIdxOf : List BlockstateKey → BlockstateKey → Option Nat
  | [], _ => none
  | k2 :: rest, k =>
      if k2 = k then some 0 else (firstIdxOf rest k).map (· + 1)

/-- Index of the last occurrence of a key in a list, if any. -/
def lastIdxOf : List BlockstateKey → BlockstateKey → Option Nat
  | [], _ => none
  | k2 :: rest, k =>
      match lastIdxOf rest k with
      | some j => some (j + 1)
      | none => if k2 = k then some 0 else none

/-- The host-side handle directory (`IdList` in `palette.rs`): maps an `i32`
directory key (modelled by its `u32` bit pattern) to a host object. -/
structure IdList where
  map : Nat → Option GlobalRef

/-- Modelled from the spec: the variable-length-integer read of the external
`mc_varint` crate (`Cursor::read_var_int`), whose source is not part of this
repository.  Per the spec it is a little-endian base-128 varint: each byte
carries seven payload bits low-to-high, bit 7 set means more bytes follow,
at most five bytes for a 32-bit value, and more than five continuation
bytes without termination is a fatal framing error.  `i` counts the bytes
already consumed, `acc` is the `i32` accumulator's bit pattern; returns the
decoded pattern and the number of bytes consumed, or `none` on a framing
error or on running out of input. -/
def readVarIntAux : List Nat → Nat → Nat → Option (Nat × Nat)
  | [], _, _ => none
  | b :: rest, i, acc =>
      let acc2 := (acc ||| ((b &&& 127) <<< (7 * i))) % 2 ^ 32
      if b &&& 128 = 0 then some (acc2, i + 1)
      else if i + 1 < 5 then readVarIntAux rest (i + 1) acc2
      else none

/-- Read one varint from the front of a byte list. -/
def readVarInt (bytes : List Nat) : Option (Nat × Nat) :=
  readVarIntAux bytes 0 0

/-- Modelled from the spec: the matching varint writer (seven payload bits
per byte, low-to-high, continuation bit 7), used to state the round-trip
property.  The fuel bounds the recursion; five bytes always suffice for a
32-bit value. -/
def encodeVarIntAux : Nat → Nat → List Nat
  | 0, v => [v]
  | fuel + 1, v =>
      if v < 128 then [v] else (v % 128 + 128) :: encodeVarIntAux fuel (v / 128)

/-- Encode a `u32` bit pattern as a varint byte list. -/
def encodeVarInt (v : Nat) : List Nat :=
  encodeVarIntAux 5 v

/-- Derive a block-state key from one packed `blockstate_offsets` element
(an `i32` bit pattern): `block: (off >> 16) as u16, augment: (off & 0xffff)
as u16` in `paletteReadPacket`. -/
def offsetToKey (off : Nat) : BlockstateKey :=
  { block := (off >>> 16) &&& 0xFFFF, augment := off &&& 0xFFFF }

/-- The per-entry loop of `paletteReadPacket`: for each remaining
`blockstate_offsets` element, read one varint directory key, resolve it in
the id list (`unwrap`: unresolvable keys abort), and `add` the resolved
object with the key split out of the offset.  Returns the palette as left
by the loop (also on abort, matching the mutation-in-place of the Rust
code) and, on success, the running count of bytes consumed. -/
def decodeLoop (idList : IdList) (offsets : List Nat) (p : JavaPalette)
    (bytes : List Nat) (consumed : Nat) : JavaPalette × Option Nat :=
  match offsets with
  | [] => (p, some consumed)
  | off :: rest =>
      match readVarInt bytes with
      | none => (p, none)
      | some (key, n) =>
          match idList.map key with
          | none => (p, none)
          | some obj =>
              decodeLoop idList rest (p.add (obj, offsetToKey off))
                (bytes.drop n) (consumed + n)

/-- The packet decoder (`Java_dev_birb_wgpu_rust_WgpuNative_paletteReadPacket`)
on the byte slice starting at the caller's cursor position: read a leading
varint entry count, then iterate over
`blockstate_offsets.iter().take(packet_len as usize)` — i.e. over at most
`count` offsets elements — reading one varint key per element.  The count is
the decoded `i32` pattern (`packet_len as usize` sign-extends a negative
count to a huge value; for any offsets array of length below `2 ^ 31` the
truncation by `take` coincides with this model).  Returns the final palette
and, on success, the total bytes consumed (`cursor.position()`). -/
def decode_packet (idList : IdList) (p : JavaPalette) (bytes : List Nat)
    (offsets : List Nat) : JavaPalette × Option Nat :=
  match readVarInt bytes with
  | none => (p, none)
  | some (count, n) => decodeLoop idList (offsets.take count) p (bytes.drop n) n

/-- The process-wide palette registry (`PALETTE_STORAGE: Slab<JavaPalette>`),
modelled as a list of optionally-occupied slots addressed by index. -/
abbrev PaletteSlab := List (Option JavaPalette)

/-- Slab insertion: place the value in a vacant slot (the slab crate reuses
vacant slots before growing the backing storage) and return its key. -/
def slabInsert : PaletteSlab → JavaPalette → PaletteSlab × Nat
  | [], p => ([some p], 0)
  | none :: rest, p => (some p :: rest, 0)
  | some q :: rest, p =>
      let (s2, k) := slabInsert rest p
      (some q :: s2, k + 1)

/-- Slab lookup by key (`Slab::get`). -/
def slabGet (s : PaletteSlab) (k : Nat) : Option JavaPalette :=
  (s[k]?).bind id

/-- Overwrite the slot at a key, if it exists. -/
def slabSet : PaletteSlab → Nat → Option JavaPalette → PaletteSlab
  | [], _, _ => []
  | _ :: rest, 0, v => v :: rest
  | x :: rest, k + 1, v => x :: slabSet rest k v

/-- Apply an in-place mutation to the palette stored at a key
(the `storage_access.get_mut(handle).unwrap()` pattern of the JNI entry
points); keys not holding a palette are left untouched. -/
def slabModifyAt (s : PaletteSlab) (k : Nat) (f : JavaPalette → JavaPalette) :
    PaletteSlab :=
  match slabGet s k with
  | none => s
  | some p => slabSet s k (some (f p))

/-- The palette copy entry point
(`Java_dev_birb_wgpu_rust_WgpuNative_copyPalette`): look the source up
(`unwrap`: a dead handle aborts), `clone` it, and insert the clone as a new
registry entry, returning the new handle. -/
def copyPalette (s : PaletteSlab) (h : Nat) : Option (PaletteSlab × Nat) :=
  match slabGet s h with
  | none => none
  | some p => some (slabInsert s p)

/-- A recorded legacy drawing operation (`GLCommand` in `gl/pipeline.rs`).
`f32` payloads (matrix entries, clear-color channels) are carried as opaque
bit patterns: replay only copies them into GPU buffers. -/
inductive GLCommand where
  | setMatrix (mat : List Nat)
  | clearColor (r g b : Nat)
  | usePipeline (pipeline : Nat)
  | setVertexBuffer (buf : List Nat)
  | setIndexBuffer (buf : List Nat)
  | drawIndexed (count : Nat)
  | draw (count : Nat)
  | attachTexture (texture : Int)
deriving DecidableEq, Repr

/-- A texture-directory entry (`crate::GlTexture` as used by the
`AttachTexture` replay arm): it optionally holds a bindable texture. -/
structure GlTexture where
  bindable_texture : Option Nat
deriving DecidableEq, Repr

/-- The payload bound by a `set_bind_group` backend call during replay:
either a texture's bind group or a freshly created matrix uniform group. -/
inductive BindGroupData where
  | texture (tex : Nat)
  | matrix (mat : List Nat)
deriving DecidableEq, Repr

/-- One low-level graphics-API call issued on the render pass during
replay. -/
inductive BackendCall where
  | setPipeline (name : String)
  | setVertexBuffer (slot : Nat) (contents : List Nat)
  | setIndexBuffer (contents : List Nat)
  | draw (vertices : Nat) (instances : Nat)
  | drawIndexed (indices : Nat) (instances : Nat)
  | setBindGroup (slot : Nat) (group : BindGroupData)
deriving DecidableEq, Repr

/-- The ambient state replay reads (pipeline manager, texture directory,
fallback texture cell, bind-group layouts).  Membership predicates model
the `HashMap` lookups whose failure is an `unwrap` panic. -/
structure RenderEnv where
  renderPipelines : String → Bool
  glAlloc : Int → Option GlTexture
  blackTexture : Option Nat
  bindGroupLayouts : String → Bool

/-- The logical-pipeline names resolved by the `UsePipeline` arm; indices
outside the closed enum hit `unimplemented!`. -/
def glPipelineName : Nat → Option String
  | 0 => some "pos_col_uint"
  | 1 => some "pos_tex"
  | 2 => some "wgpu_mc_ogl:pipelines/pos_col_float3"
  | _ => none

/-- Bit pattern of the `f32` value `-1.0`, as uploaded by the clear-color
quad. -/
def f32NegOne : Nat := 0xBF800000

/-- Bit pattern of the `f32` value `1.0`. -/
def f32One : Nat := 0x3F800000

/-- The two-triangle full-screen quad synthesized by the `ClearColor` arm:
interleaved position/colour data `[x, y, r, g, b]` for six vertices. -/
def clearColorVerts (r g b : Nat) : List Nat :=
  [f32NegOne, f32NegOne, r, g, b,
   f32NegOne, f32One, r, g, b,
   f32One, f32One, r, g, b,
   f32NegOne, f32NegOne, r, g, b,
   f32One, f32One, r, g, b,
   f32One, f32NegOne, r, g, b]

/-- Replay of a single recorded entry (one arm of the `match` inside
`GlPipeline::render`), appending the backend calls it issues to the render
pass's call log; `none` models the `unwrap`/`unimplemented!` aborts. -/
def processCommand (env : RenderEnv) (c : GLCommand) (pass : List BackendCall) :
    Option (List BackendCall) :=
  match c with
  | .usePipeline i =>
      (glPipelineName i).bind fun n =>
        if env.renderPipelines n then some (pass ++ [.setPipeline n]) else none
  | .setVertexBuffer buf => some (pass ++ [.setVertexBuffer 0 buf])
  | .setIndexBuffer buf => some (pass ++ [.setIndexBuffer buf])
  | .draw count => some (pass ++ [.draw count 1])
  | .drawIndexed count => some (pass ++ [.drawIndexed count 1])
  | .clearColor r g b =>
      if env.renderPipelines "clearcolor" then
        some (pass ++ [.setPipeline "clearcolor",
                       .setVertexBuffer 0 (clearColorVerts r g b),
                       .draw 6 1])
      else none
  | .attachTexture t =>
      Option.map (fun tex => pass ++ [.setBindGroup 1 (.texture tex)])
        (match env.glAlloc t with
         | none => env.blackTexture
         | some tx => tx.bindable_texture)
  | .setMatrix mat =>
      if env.bindGroupLayouts "matrix4" then
        some (pass ++ [.setBindGroup 0 (.matrix mat)])
      else none

/-- Replay of a whole frozen command sequence (`GlPipeline::render`): walk
the recorded entries in order, threading the render pass. -/
def renderCommands (env : RenderEnv) (cmds : List GLCommand)
    (pass : List BackendCall) : Option (List BackendCall) :=
  match cmds with
  | [] => some pass
  | c :: rest =>
      match processCommand env c pass with
      | none => none
      | some pass2 => renderCommands env rest pass2

/-- The structural palette invariant stated by the spec: every key recorded
in `indices` points at a valid position of `store` carrying that key, and
every store entry's key is present in `indices` (no orphans on either
side). -/
def PaletteInv (p : JavaPalette) : Prop :=
  (∀ k pos, lookupKey p.indices k = some pos →
    ∃ g, p.store[pos]? = some (g, k)) ∧
  (∀ e ∈ p.store, lookupKey p.indices e.2 ≠ none)

/-- The catalog of palette-mutating operations, used to state invariant
preservation uniformly. -/
inductive PaletteOp where
  | index (element : GlobalRef × BlockstateKey)
  | add (element : GlobalRef × BlockstateKey)
  | clear
  | copy
  | decodePacket (idList : IdList) (bytes : List Nat) (offsets : List Nat)

/-- Apply one palette operation to a palette value.  `copy` clones the
value (`#[derive(Clone)]`); `decodePacket` leaves the palette as the decode
loop left it, also when the decode aborts partway. -/
def applyOp (op : PaletteOp) (p : JavaPalette) : JavaPalette :=
  match op with
  | .index e => (p.index e).1
  | .add e => p.add e
  | .clear => p.clear
  | .copy => p
  | .decodePacket idList bytes offsets =>
      (decode_packet idList p bytes offsets).1

/-! ## Helper lemmas -/

theorem firstIdxOf_eq_none_iff (l : List BlockstateKey) (k : BlockstateKey) :
    firstIdxOf l k = none ↔ k ∉ l := by
  induction l with
  | nil => simp [firstIdxOf]
  | cons k2 rest ih =>
      by_cases hk : k2 = k
      · subst hk
        simp [firstIdxOf]
      · rw [List.mem_cons]
        simp only [firstIdxOf, if_neg hk, Option.map_eq_none', ih]
        constructor
        · intro h
          rintro (h1 | h2)
          · exact hk h1.symm
          · exact h h2
        · intro h h2
          exact h (Or.inr h2)

theorem firstIdxOf_append (l1 l2 : List BlockstateKey) (k : BlockstateKey) :
    firstIdxOf (l1 ++ l2) k =
      match firstIdxOf l1 k with
      | some j => some j
      | none => (firstIdxOf l2 k).map (· + l1.length) := by
  induction l1 with
  | nil => simp [firstIdxOf]
  | cons k2 rest ih =>
      by_cases hk : k2 = k
      · simp [firstIdxOf, hk]
      · have hstep : ∀ (t : List BlockstateKey),
            firstIdxOf (k2 :: t) k = (firstIdxOf t k).map (· + 1) := by
          intro t
          simp [firstIdxOf, if_neg hk]
        rw [List.cons_append, hstep, hstep, ih]
        cases h1 : firstIdxOf rest k with
        | some j => simp
        | none =>
            cases h2 : firstIdxOf l2 k with
            | some j =>
                simp [List.length_cons]
                omega
            | none => simp

theorem firstIdxOf_concat_self (l : List BlockstateKey) (k : BlockstateKey)
    (h : k ∉ l) : firstIdxOf (l ++ [k]) k = some l.length := by
  rw [firstIdxOf_append, (firstIdxOf_eq_none_iff l k).mpr h]
  simp [firstIdxOf]

theorem firstIdxOf_lt_length (l : List BlockstateKey) (k : BlockstateKey)
    (j : Nat) (h : firstIdxOf l k = some j) : j < l.length := by
  induction l generalizing j with
  | nil => simp [firstIdxOf] at h
  | cons k2 rest ih =>
      simp only [firstIdxOf] at h
      by_cases hk : k2 = k
      · rw [if_pos hk] at h
        injection h with h
        simp only [List.length_cons]
        omega
      · rw [if_neg hk] at h
        obtain ⟨j2, hj2, hj⟩ := Option.map_eq_some'.mp h
        have := ih j2 hj2
        simp only [List.length_cons]
        omega

theorem distinctAppend_nil (acc : List BlockstateKey) :
    distinctAppend acc [] = acc := rfl

theorem distinctAppend_cons (acc : List BlockstateKey) (k : BlockstateKey)
    (ks : List BlockstateKey) :
    distinctAppend acc (k :: ks) =
      distinctAppend (if k ∈ acc then acc else acc ++ [k]) ks := rfl

theorem distinctAppend_append (acc : List BlockstateKey)
    (ks1 ks2 : List BlockstateKey) :
    distinctAppend acc (ks1 ++ ks2) = distinctAppend (distinctAppend acc ks1) ks2 := by
  simp [distinctAppend, List.foldl_append]

theorem distinctAppend_mem (acc ks : List BlockstateKey) (x : BlockstateKey) :
    x ∈ distinctAppend acc ks ↔ x ∈ acc ∨ x ∈ ks := by
  induction ks generalizing acc with
  | nil => simp [distinctAppend_nil]
  | cons k rest ih =>
      rw [distinctAppend_cons]
      by_cases hm : k ∈ acc
      · rw [if_pos hm, ih]
        constructor
        · rintro (h | h)
          · exact Or.inl h
          · exact Or.inr (List.mem_cons_of_mem _ h)
        · rintro (h | h)
          · exact Or.inl h
          · rcases List.mem_cons.mp h with h | h
            · subst h
              exact Or.inl hm
            · exact Or.inr h
      · rw [if_neg hm, ih]
        simp only [List.mem_append, List.mem_singleton, List.mem_cons]
        tauto

theorem distinctAppend_nodup (acc ks : List BlockstateKey) (h : acc.Nodup) :
    (distinctAppend acc ks).Nodup := by
  induction ks generalizing acc with
  | nil => exact h
  | cons k rest ih =>
      rw [distinctAppend_cons]
      by_cases hm : k ∈ acc
      · rw [if_pos hm]
        exact ih acc h
      · rw [if_neg hm]
        refine ih _ ?_
        simp [List.nodup_append, h, hm]

theorem distinctAppend_exists_suffix (acc ks : List BlockstateKey) :
    ∃ t, distinctAppend acc ks = acc ++ t := by
  induction ks generalizing acc with
  | nil => exact ⟨[], by simp [distinctAppend_nil]⟩
  | cons k rest ih =>
      rw [distinctAppend_cons]
      by_cases hm : k ∈ acc
      · rw [if_pos hm]
        exact ih acc
      · rw [if_neg hm]
        obtain ⟨t, ht⟩ := ih (acc ++ [k])
        exact ⟨k :: t, by simpa using ht⟩

theorem indexAll_spec (es : List (GlobalRef × BlockstateKey)) :
    ∀ (p : JavaPalette),
    (∀ k, lookupKey p.indices k = firstIdxOf (p.store.map Prod.snd) k) →
    ((indexAll p es).store.map Prod.snd
        = distinctAppend (p.store.map Prod.snd) (es.map Prod.snd)) ∧
    (∀ k, lookupKey (indexAll p es).indices k
        = firstIdxOf ((indexAll p es).store.map Prod.snd) k) ∧
    (indexAll p es).id_list = p.id_list := by
  induction es with
  | nil =>
      intro p hp
      exact ⟨by simp [indexAll, distinctAppend_nil], hp, rfl⟩
  | cons e es ih =>
      intro p hp
      have hstep : indexAll p (e :: es) = indexAll (p.index e).1 es := rfl
      cases h1 : lookupKey p.indices e.2 with
      | some i =>
          have hqp : (p.index e).1 = p := by
            simp [JavaPalette.index, h1]
          have hmem : e.2 ∈ p.store.map Prod.snd := by
            by_contra hnm
            rw [hp e.2, (firstIdxOf_eq_none_iff _ _).mpr hnm] at h1
            exact Option.noConfusion h1
          obtain ⟨hstore, hind, hid⟩ := ih p hp
          rw [hstep, hqp]
          refine ⟨?_, hind, hid⟩
          rw [hstore, List.map_cons, distinctAppend_cons, if_pos hmem]
      | none =>
          have hnm : e.2 ∉ p.store.map Prod.snd := by
            rw [hp e.2] at h1
            exact (firstIdxOf_eq_none_iff _ _).mp h1
          have hqp : (p.index e).1 =
              { store := p.store ++ [e],
                indices := insertKey p.indices e.2 p.store.length,
                id_list := p.id_list } := by
            simp [JavaPalette.index, h1]
          have hqkeys : ((p.index e).1).store.map Prod.snd
              = p.store.map Prod.snd ++ [e.2] := by
            rw [hqp]
            simp
          have hq : ∀ k, lookupKey ((p.index e).1).indices k
              = firstIdxOf (((p.index e).1).store.map Prod.snd) k := by
            intro k
            rw [hqkeys, hqp]
            by_cases hk : e.2 = k
            · subst hk
              show (if e.2 = e.2 then some p.store.length
                  else lookupKey p.indices e.2) = _
              rw [if_pos rfl, firstIdxOf_concat_self _ _ hnm]
              simp
            · show (if e.2 = k then some p.store.length
                  else lookupKey p.indices k) = _
              rw [if_neg hk, hp k, firstIdxOf_append]
              cases firstIdxOf (p.store.map Prod.snd) k with
              | some j => simp
              | none =>
                  simp [firstIdxOf, hk]
          obtain ⟨hstore, hind, hid⟩ := ih (p.index e).1 hq
          rw [hstep]
          refine ⟨?_, hind, ?_⟩
          · rw [hstore, hqkeys, List.map_cons, distinctAppend_cons, if_neg hnm]
          · rw [hid, hqp]

theorem addAll_store (es : List (GlobalRef × BlockstateKey)) :
    ∀ p, (addAll p es).store = p.store ++ es := by
  induction es with
  | nil => intro p; simp [addAll]
  | cons e es ih =>
      intro p
      have hstep : addAll p (e :: es) = addAll (p.add e) es := rfl
      rw [hstep, ih]
      simp [JavaPalette.add]

theorem addAll_id_list (es : List (GlobalRef × BlockstateKey)) :
    ∀ p, (addAll p es).id_list = p.id_list := by
  induction es with
  | nil => intro p; rfl
  | cons e es ih =>
      intro p
      have hstep : addAll p (e :: es) = addAll (p.add e) es := rfl
      rw [hstep, ih]
      rfl

theorem addAll_lookup (es : List (GlobalRef × BlockstateKey)) :
    ∀ (p : JavaPalette) (k : BlockstateKey),
    lookupKey (addAll p es).indices k =
      match lastIdxOf (es.map Prod.snd) k with
      | some j => some (p.store.length + j)
      | none => lookupKey p.indices k := by
  induction es with
  | nil =>
      intro p k
      simp [addAll, lastIdxOf]
  | cons e es ih =>
      intro p k
      have hstep : addAll p (e :: es) = addAll (p.add e) es := rfl
      rw [hstep, ih (p.add e) k]
      have hlen : (p.add e).store.length = p.store.length + 1 := by
        simp [JavaPalette.add]
      have hlk : lookupKey (p.add e).indices k =
          if e.2 = k then some p.store.length else lookupKey p.indices k := rfl
      have hlast : lastIdxOf ((e :: es).map Prod.snd) k =
          match lastIdxOf (es.map Prod.snd) k with
          | some j => some (j + 1)
          | none => if e.2 = k then some 0 else none := rfl
      rw [hlast]
      cases h1 : lastIdxOf (es.map Prod.snd) k with
      | some j =>
          rw [hlen]
          simp only [Option.some.injEq]
          omega
      | none =>
          rw [hlk]
          by_cases hk : e.2 = k
          · rw [if_pos hk, if_pos hk]
            simp
          · rw [if_neg hk, if_neg hk]
theorem lor_mul_two_pow_eq_add : ∀ (k a b : Nat), a < 2 ^ k →
    a ||| b * 2 ^ k = a + b * 2 ^ k := by
  intro k
  induction k with
  | zero =>
      intro a b h
      rw [pow_zero] at h ⊢
      have ha : a = 0 := by omega
      subst ha
      simp
  | succ k ih =>
      intro a b h
      have hp : (2 : Nat) ^ (k + 1) = 2 ^ k * 2 := pow_succ 2 k
      have hm2 : b * 2 ^ (k + 1) % 2 = 0 := by
        rw [hp, ← Nat.mul_assoc]
        exact Nat.mul_mod_left (b * 2 ^ k) 2
      have hdiv : b * 2 ^ (k + 1) / 2 = b * 2 ^ k := by
        rw [hp, ← Nat.mul_assoc]
        omega
      have hor_div : (a ||| b * 2 ^ (k + 1)) / 2 = a / 2 ||| b * 2 ^ k := by
        rw [Nat.or_div_two, hdiv]
      have hiff := @Nat.or_mod_two_eq_one a (b * 2 ^ (k + 1))
      have hor_mod : (a ||| b * 2 ^ (k + 1)) % 2 = a % 2 := by omega
      have ha2 : a / 2 < 2 ^ k := by
        rw [hp] at h
        omega
      have hx := Nat.div_add_mod (a ||| b * 2 ^ (k + 1)) 2
      rw [hor_div, hor_mod, ih (a / 2) b ha2] at hx
      have hy := Nat.div_add_mod a 2
      have hu : b * 2 ^ (k + 1) = 2 * (b * 2 ^ k) := by
        rw [hp]
        ring
      omega

theorem and_128_of_lt (x : Nat) (h : x < 128) : x &&& 128 = 0 := by
  have h2 : x &&& 2 ^ 7 = (x.testBit 7).toNat * 2 ^ 7 := Nat.and_two_pow x 7
  have h7 : (2 : Nat) ^ 7 = 128 := by norm_num
  rw [Nat.testBit_lt_two_pow (show x < 2 ^ 7 by rw [h7]; exact h)] at h2
  simpa using h2

theorem and_128_of_byte (v : Nat) : (v % 128 + 128) &&& 128 = 128 := by
  have h2 : (v % 128 + 128) &&& 2 ^ 7 = ((v % 128 + 128).testBit 7).toNat * 2 ^ 7 :=
    Nat.and_two_pow (v % 128 + 128) 7
  have h3 : (v % 128 + 128).testBit 7 = true := by
    rw [Nat.testBit_to_div_mod]
    have : (v % 128 + 128) / 2 ^ 7 % 2 = 1 := by
      have : (2 : Nat) ^ 7 = 128 := by norm_num
      rw [this]
      omega
    simp [this]
  rw [h3] at h2
  simpa using h2

theorem and_127_eq_mod (x : Nat) : x &&& 127 = x % 128 := by
  have h2 : x &&& 2 ^ 7 - 1 = x % 2 ^ 7 := Nat.and_pow_two_sub_one_eq_mod x 7
  norm_num at h2
  exact h2

theorem readVarIntAux_encode : ∀ (fuel i acc v : Nat) (rest : List Nat),
    fuel + i = 5 → acc < 2 ^ (7 * i) → acc + v * 2 ^ (7 * i) < 2 ^ 32 →
    readVarIntAux (encodeVarIntAux fuel v ++ rest) i acc =
      some (acc + v * 2 ^ (7 * i), i + (encodeVarIntAux fuel v).length) := by
  intro fuel
  induction fuel with
  | zero =>
      intro i acc v rest hfi hacc hbound
      have hi : i = 5 := by omega
      subst hi
      have h35 : (2 : Nat) ^ (7 * 5) = 2 ^ 35 := by norm_num
      have hv : v = 0 := by
        by_contra hv0
        have h1 : 1 ≤ v := Nat.one_le_iff_ne_zero.mpr hv0
        have h2 : 2 ^ (7 * 5) ≤ v * 2 ^ (7 * 5) := Nat.le_mul_of_pos_left _ (by omega)
        have h3 : (2 : Nat) ^ 32 ≤ 2 ^ (7 * 5) := Nat.pow_le_pow_right (by norm_num) (by norm_num)
        omega
      subst hv
      show readVarIntAux (0 :: rest) 5 acc = some (acc + 0 * 2 ^ (7 * 5), 5 + 1)
      simp only [readVarIntAux]
      have hz : (0 : Nat) &&& 128 = 0 := by decide
      have hz2 : (0 : Nat) &&& 127 = 0 := by decide
      rw [hz2, hz]
      simp only [if_pos rfl]
      have hb32 : acc < 2 ^ 32 := by omega
      have hsh : (0 : Nat) <<< (7 * 5) = 0 := by simp [Nat.shiftLeft_eq]
      rw [hsh, Nat.or_zero, Nat.mod_eq_of_lt hb32]
      simp
  | succ fuel ih =>
      intro i acc v rest hfi hacc hbound
      by_cases hv : v < 128
      · show readVarIntAux ((if v < 128 then [v]
            else (v % 128 + 128) :: encodeVarIntAux fuel (v / 128)) ++ rest) i acc = _
        rw [if_pos hv]
        show readVarIntAux (v :: rest) i acc = _
        simp only [readVarIntAux]
        rw [and_127_eq_mod, and_128_of_lt v hv, if_pos rfl]
        have hmod : v % 128 = v := Nat.mod_eq_of_lt hv
        rw [hmod, Nat.shiftLeft_eq,
          lor_mul_two_pow_eq_add (7 * i) acc v hacc,
          Nat.mod_eq_of_lt hbound]
        have hlen1 : (encodeVarIntAux (fuel + 1) v).length = 1 := by
          show (if v < 128 then [v]
            else (v % 128 + 128) :: encodeVarIntAux fuel (v / 128)).length = 1
          rw [if_pos hv]
          rfl
        rw [hlen1]
      · show readVarIntAux ((if v < 128 then [v]
            else (v % 128 + 128) :: encodeVarIntAux fuel (v / 128)) ++ rest) i acc = _
        rw [if_neg hv]
        show readVarIntAux ((v % 128 + 128) :: (encodeVarIntAux fuel (v / 128) ++ rest)) i acc = _
        simp only [readVarIntAux]
        rw [and_127_eq_mod, and_128_of_byte v]
        have h128 : (128 : Nat) ≠ 0 := by norm_num
        rw [if_neg h128]
        have hmm : (v % 128 + 128) % 128 = v % 128 := by omega
        rw [hmm]
        -- bounds bookkeeping
        have hpow : (2 : Nat) ^ (7 * (i + 1)) = 128 * 2 ^ (7 * i) := by
          have : 7 * (i + 1) = 7 * i + 7 := by ring
          rw [this, pow_add]
          norm_num
          ring
        have hmul_le : (v % 128) * 2 ^ (7 * i) ≤ 127 * 2 ^ (7 * i) :=
          Nat.mul_le_mul_right _ (by omega)
        have hvmul_le : (v % 128) * 2 ^ (7 * i) ≤ v * 2 ^ (7 * i) :=
          Nat.mul_le_mul_right _ (Nat.mod_le v 128)
        have hsplit : (v % 128) * 2 ^ (7 * i) + (v / 128) * 2 ^ (7 * (i + 1)) = v * 2 ^ (7 * i) := by
          have hdm : 128 * (v / 128) + v % 128 = v := Nat.div_add_mod v 128
          calc (v % 128) * 2 ^ (7 * i) + (v / 128) * 2 ^ (7 * (i + 1))
              = (v % 128) * 2 ^ (7 * i) + (v / 128) * (128 * 2 ^ (7 * i)) := by rw [hpow]
            _ = (128 * (v / 128) + v % 128) * 2 ^ (7 * i) := by ring
            _ = v * 2 ^ (7 * i) := by rw [hdm]
        have hi5 : i + 1 < 5 := by
          by_contra hge
          have hi4 : i = 4 := by omega
          subst hi4
          have h28 : (2 : Nat) ^ (7 * 4) = 2 ^ 28 := by norm_num
          have hge128 : 128 * 2 ^ (7 * 4) ≤ v * 2 ^ (7 * 4) :=
            Nat.mul_le_mul_right _ (by omega)
          have : (128 : Nat) * 2 ^ 28 = 2 ^ 35 := by norm_num
          have h3 : (2 : Nat) ^ 32 ≤ 2 ^ 35 := Nat.pow_le_pow_right (by norm_num) (by norm_num)
          omega
        rw [if_pos hi5]
        have hacc2eq : (acc ||| (v % 128) <<< (7 * i)) % 2 ^ 32
            = acc + (v % 128) * 2 ^ (7 * i) := by
          rw [Nat.shiftLeft_eq, lor_mul_two_pow_eq_add (7 * i) acc (v % 128) hacc,
            Nat.mod_eq_of_lt (by omega)]
        rw [hacc2eq]
        rw [ih (i + 1) (acc + (v % 128) * 2 ^ (7 * i)) (v / 128)
          rest (by omega) (by omega) (by omega)]
        have hlen : (encodeVarIntAux (fuel + 1) v).length
            = 1 + (encodeVarIntAux fuel (v / 128)).length := by
          show (if v < 128 then [v]
            else (v % 128 + 128) :: encodeVarIntAux fuel (v / 128)).length = _
          rw [if_neg hv]
          simp only [List.length_cons]
          omega
        rw [hlen]
        have hval : acc + v % 128 * 2 ^ (7 * i) + v / 128 * 2 ^ (7 * (i + 1))
            = acc + v * 2 ^ (7 * i) := by omega
        have hidx : i + 1 + (encodeVarIntAux fuel (v / 128)).length
            = i + (1 + (encodeVarIntAux fuel (v / 128)).length) := by omega
        rw [hval, hidx]

theorem readVarInt_encode (v : Nat) (hv : v < 2 ^ 32) (rest : List Nat) :
    readVarInt (encodeVarInt v ++ rest) = some (v, (encodeVarInt v).length) := by
  have h := readVarIntAux_encode 5 0 0 v rest (by norm_num) (by norm_num)
    (by simpa using hv)
  simpa [readVarInt, encodeVarInt] using h

theorem decodeLoop_encode (idL : IdList) (keys : List Nat) :
    ∀ (offs : List Nat) (p : JavaPalette) (rest : List Nat) (consumed : Nat),
    keys.length = offs.length →
    (∀ k ∈ keys, k < 2 ^ 32 ∧ (idL.map k).isSome) →
    decodeLoop idL offs p ((keys.map encodeVarInt).flatten ++ rest) consumed =
      (addAll p ((keys.zip offs).map fun kv =>
          ((idL.map kv.1).getD 0, offsetToKey kv.2)),
       some (consumed + ((keys.map encodeVarInt).flatten).length)) := by
  induction keys with
  | nil =>
      intro offs p rest consumed hlen hk
      have hoffs : offs = [] := by
        cases offs with
        | nil => rfl
        | cons o os => simp at hlen
      subst hoffs
      simp [decodeLoop, addAll]
  | cons key keys ih =>
      intro offs p rest consumed hlen hk
      cases offs with
      | nil => simp at hlen
      | cons off offs =>
          obtain ⟨hk32, hks⟩ := hk key (List.mem_cons_self _ _)
          obtain ⟨g, hg⟩ := Option.isSome_iff_exists.mp hks
          have hbytes : ((key :: keys).map encodeVarInt).flatten ++ rest
              = encodeVarInt key ++ ((keys.map encodeVarInt).flatten ++ rest) := by
            simp
          have hread : readVarInt (((key :: keys).map encodeVarInt).flatten ++ rest)
              = some (key, (encodeVarInt key).length) := by
            rw [hbytes]
            exact readVarInt_encode key hk32 _
          have hdrop : (((key :: keys).map encodeVarInt).flatten ++ rest).drop
              (encodeVarInt key).length = (keys.map encodeVarInt).flatten ++ rest := by
            rw [hbytes]
            exact List.drop_left _ _
          have hloop : decodeLoop idL (off :: offs) p
              (((key :: keys).map encodeVarInt).flatten ++ rest) consumed
              = decodeLoop idL offs (p.add (g, offsetToKey off))
                ((keys.map encodeVarInt).flatten ++ rest)
                (consumed + (encodeVarInt key).length) := by
            simp only [decodeLoop, hread, hg, hdrop]
          rw [hloop, ih offs (p.add (g, offsetToKey off)) rest
            (consumed + (encodeVarInt key).length) (by simpa using hlen)
            (fun k hr => hk k (List.mem_cons_of_mem _ hr))]
          have hz : ((key :: keys).zip (off :: offs)).map
              (fun kv => ((idL.map kv.1).getD 0, offsetToKey kv.2))
              = ((idL.map key).getD 0, offsetToKey off) ::
                (keys.zip offs).map
                  (fun kv => ((idL.map kv.1).getD 0, offsetToKey kv.2)) := by
            simp [List.zip_cons_cons]
          have haddstep : addAll p (((key :: keys).zip (off :: offs)).map
              (fun kv => ((idL.map kv.1).getD 0, offsetToKey kv.2)))
              = addAll (p.add ((idL.map key).getD 0, offsetToKey off))
                ((keys.zip offs).map
                  (fun kv => ((idL.map kv.1).getD 0, offsetToKey kv.2))) := by
            rw [hz]
            rfl
          rw [haddstep, hg]
          have hflen : (((key :: keys).map encodeVarInt).flatten).length
              = (encodeVarInt key).length + ((keys.map encodeVarInt).flatten).length := by
            simp
          rw [hflen]
          have : Option.getD (some g) 0 = g := rfl
          rw [this]
          have hsum : consumed + (encodeVarInt key).length
              + ((keys.map encodeVarInt).flatten).length
              = consumed + ((encodeVarInt key).length
                + ((keys.map encodeVarInt).flatten).length) := by omega
          rw [hsum]

theorem slabInsert_spec (s : PaletteSlab) :
    ∀ (p : JavaPalette),
    slabGet (slabInsert s p).1 (slabInsert s p).2 = some p ∧
    slabGet s (slabInsert s p).2 = none ∧
    ∀ j, j ≠ (slabInsert s p).2 → slabGet (slabInsert s p).1 j = slabGet s j := by
  induction s with
  | nil =>
      intro p
      refine ⟨by simp [slabGet, slabInsert], by simp [slabGet, slabInsert], ?_⟩
      intro j hj
      cases j with
      | zero => exact absurd rfl hj
      | succ j2 => simp [slabGet, slabInsert]
  | cons head rest ih =>
      intro p
      cases head with
      | none =>
          refine ⟨by simp [slabGet, slabInsert], by simp [slabGet, slabInsert], ?_⟩
          intro j hj
          cases j with
          | zero => exact absurd rfl hj
          | succ j2 => simp [slabGet, slabInsert]
      | some q =>
          rcases hsi : slabInsert rest p with ⟨s2, k2⟩
          have hstep : slabInsert (some q :: rest) p = (some q :: s2, k2 + 1) := by
            simp [slabInsert, hsi]
          obtain ⟨ih1, ih2, ih3⟩ := ih p
          rw [hsi] at ih1 ih2 ih3
          refine ⟨?_, ?_, ?_⟩
          · rw [hstep]
            simpa [slabGet] using ih1
          · rw [hstep]
            simpa [slabGet] using ih2
          · intro j hj
            rw [hstep] at hj ⊢
            cases j with
            | zero => simp [slabGet]
            | succ j2 =>
                have hj2 : j2 ≠ k2 := by
                  intro h
                  exact hj (by simp [h])
                have := ih3 j2 hj2
                simpa [slabGet] using this

theorem slabSet_get_other (s : PaletteSlab) :
    ∀ (k : Nat) (v : Option JavaPalette) (j : Nat), j ≠ k →
    slabGet (slabSet s k v) j = slabGet s j := by
  induction s with
  | nil => intro k v j hj; rfl
  | cons head rest ih =>
      intro k v j hj
      cases k with
      | zero =>
          cases j with
          | zero => exact absurd rfl hj
          | succ j2 => simp [slabGet, slabSet]
      | succ k2 =>
          cases j with
          | zero => simp [slabGet, slabSet]
          | succ j2 =>
              have hj2 : j2 ≠ k2 := fun h => hj (by simp [h])
              have := ih k2 v j2 hj2
              simpa [slabGet, slabSet] using this

theorem slabModifyAt_get_other (s : PaletteSlab) (k : Nat)
    (f : JavaPalette → JavaPalette) (j : Nat) (hj : j ≠ k) :
    slabGet (slabModifyAt s k f) j = slabGet s j := by
  rw [slabModifyAt]
  cases slabGet s k with
  | none => rfl
  | some p => exact slabSet_get_other s k (some (f p)) j hj

theorem processCommand_shape (env : RenderEnv) (c : GLCommand) :
    (∀ pass, processCommand env c pass = none) ∨
    ∃ calls, ∀ pass, processCommand env c pass = some (pass ++ calls) := by
  cases c with
  | usePipeline i =>
      cases hg : glPipelineName i with
      | none =>
          left
          intro pass
          simp [processCommand, hg]
      | some n =>
          by_cases hr : env.renderPipelines n
          · right
            exact ⟨[.setPipeline n], fun pass => by simp [processCommand, hg, hr]⟩
          · left
            intro pass
            simp [processCommand, hg, hr]
  | setVertexBuffer buf =>
      right
      exact ⟨[.setVertexBuffer 0 buf], fun pass => rfl⟩
  | setIndexBuffer buf =>
      right
      exact ⟨[.setIndexBuffer buf], fun pass => rfl⟩
  | draw n =>
      right
      exact ⟨[.draw n 1], fun pass => rfl⟩
  | drawIndexed n =>
      right
      exact ⟨[.drawIndexed n 1], fun pass => rfl⟩
  | clearColor r g b =>
      by_cases hr : env.renderPipelines "clearcolor"
      · right
        refine ⟨[.setPipeline "clearcolor",
          .setVertexBuffer 0 (clearColorVerts r g b), .draw 6 1], fun pass => ?_⟩
        simp [processCommand, hr]
      · left
        intro pass
        simp [processCommand, hr]
  | setMatrix m =>
      by_cases hr : env.bindGroupLayouts "matrix4"
      · right
        exact ⟨[.setBindGroup 0 (.matrix m)], fun pass => by simp [processCommand, hr]⟩
      · left
        intro pass
        simp [processCommand, hr]
  | attachTexture t =>
      cases ha : env.glAlloc t with
      | none =>
          cases hb : env.blackTexture with
          | none =>
              left
              intro pass
              simp [processCommand, ha, hb]
          | some b =>
              right
              exact ⟨[.setBindGroup 1 (.texture b)],
                fun pass => by simp [processCommand, ha, hb]⟩
      | some tx =>
          cases hb : tx.bindable_texture with
          | none =>
              left
              intro pass
              simp [processCommand, ha, hb]
          | some b =>
              right
              exact ⟨[.setBindGroup 1 (.texture b)],
                fun pass => by simp [processCommand, ha, hb]⟩

theorem renderCommands_emits (env : RenderEnv) :
    ∀ (cmds : List GLCommand) (pass out : List BackendCall),
    renderCommands env cmds pass = some out →
    out = pass ++ (cmds.map fun c => (processCommand env c []).getD []).flatten := by
  intro cmds
  induction cmds with
  | nil =>
      intro pass out h
      simp only [renderCommands] at h
      injection h with h
      simp [h.symm]
  | cons c rest ih =>
      intro pass out h
      rw [renderCommands] at h
      cases hp : processCommand env c pass with
      | none => rw [hp] at h; exact Option.noConfusion h
      | some pass2 =>
          rw [hp] at h
          rcases processCommand_shape env c with hall | ⟨calls, hcalls⟩
          · rw [hall pass] at hp
            exact Option.noConfusion hp
          · have hpass2 : pass2 = pass ++ calls := by
              rw [hcalls pass] at hp
              injection hp with hp
              exact hp.symm
            have hout := ih pass2 out h
            have hchead : (processCommand env c []).getD [] = calls := by
              rw [hcalls []]
              simp
            rw [hout, hpass2, List.map_cons, List.flatten_cons, hchead]
            simp

theorem paletteInv_new (idL : Nat) : PaletteInv (JavaPalette.new idL) := by
  constructor
  · intro k pos h
    exact Option.noConfusion h
  · intro e he
    exact absurd he (List.not_mem_nil e)

theorem paletteInv_add (p : JavaPalette) (e : GlobalRef × BlockstateKey)
    (h : PaletteInv p) : PaletteInv (p.add e) := by
  obtain ⟨h1, h2⟩ := h
  constructor
  · intro k pos hl
    have hl2 : (if e.2 = k then some p.store.length
        else lookupKey p.indices k) = some pos := hl
    by_cases hk : e.2 = k
    · rw [if_pos hk] at hl2
      injection hl2 with hl2
      subst hl2
      refine ⟨e.1, ?_⟩
      show (p.store ++ [e])[p.store.length]? = some (e.1, k)
      rw [List.getElem?_concat_length]
      rw [← hk]
    · rw [if_neg hk] at hl2
      obtain ⟨g, hg⟩ := h1 k pos hl2
      have hlt : pos < p.store.length := by
        rcases List.getElem?_eq_some.mp hg with ⟨hl3, _⟩
        exact hl3
      refine ⟨g, ?_⟩
      show (p.store ++ [e])[pos]? = some (g, k)
      rw [List.getElem?_append_left hlt]
      exact hg
  · intro x hx
    rcases List.mem_append.mp hx with hx | hx
    · have := h2 x hx
      show (if e.2 = x.2 then some p.store.length
          else lookupKey p.indices x.2) ≠ none
      by_cases hk : e.2 = x.2
      · rw [if_pos hk]
        exact Option.noConfusion
      · rw [if_neg hk]
        exact this
    · have hex : x = e := List.mem_singleton.mp hx
      subst hex
      show (if x.2 = x.2 then some p.store.length
          else lookupKey p.indices x.2) ≠ none
      rw [if_pos rfl]
      exact Option.noConfusion

theorem paletteInv_index (p : JavaPalette) (e : GlobalRef × BlockstateKey)
    (h : PaletteInv p) : PaletteInv (p.index e).1 := by
  cases h1 : lookupKey p.indices e.2 with
  | some i =>
      have : (p.index e).1 = p := by simp [JavaPalette.index, h1]
      rw [this]
      exact h
  | none =>
      have : (p.index e).1 = p.add e := by
        simp [JavaPalette.index, JavaPalette.add, h1, insertKey]
      rw [this]
      exact paletteInv_add p e h

theorem paletteInv_clear (p : JavaPalette) : PaletteInv p.clear := by
  constructor
  · intro k pos h
    exact Option.noConfusion h
  · intro e he
    exact absurd he (List.not_mem_nil e)

theorem paletteInv_decodeLoop (idL : IdList) :
    ∀ (offs : List Nat) (p : JavaPalette) (bytes : List Nat) (consumed : Nat),
    PaletteInv p → PaletteInv (decodeLoop idL offs p bytes consumed).1 := by
  intro offs
  induction offs with
  | nil => intro p bytes consumed h; exact h
  | cons off rest ih =>
      intro p bytes consumed h
      rw [decodeLoop]
      split
      · exact h
      · split
        · exact h
        · exact ih _ _ _ (paletteInv_add p _ h)

theorem paletteInv_decode (idL : IdList) (p : JavaPalette) (bytes : List Nat)
    (offsets : List Nat) (h : PaletteInv p) :
    PaletteInv (decode_packet idL p bytes offsets).1 := by
  rw [decode_packet]
  split
  · exact h
  · exact paletteInv_decodeLoop idL _ p _ _ h

theorem offsetToKey_eq (off : Nat) (h : off < 2 ^ 32) :
    offsetToKey off = { block := off / 2 ^ 16, augment := off % 2 ^ 16 } := by
  have h16 : (0xFFFF : Nat) = 2 ^ 16 - 1 := by norm_num
  have hdiv : off / 2 ^ 16 < 2 ^ 16 := by
    have : (2 : Nat) ^ 32 = 2 ^ 16 * 2 ^ 16 := by norm_num
    rw [Nat.div_lt_iff_lt_mul (by norm_num : 0 < 2 ^ 16)]
    omega
  rw [offsetToKey, Nat.shiftRight_eq_div_pow, h16,
    Nat.and_pow_two_sub_one_eq_mod, Nat.and_pow_two_sub_one_eq_mod,
    Nat.mod_eq_of_lt hdiv]

theorem decode_packet_encode (idL : IdList) (p : JavaPalette)
    (keys offsets rest : List Nat) (m : Nat)
    (hm : m = min keys.length offsets.length)
    (hcount : keys.length < 2 ^ 31)
    (hkeys : ∀ k ∈ keys, k < 2 ^ 32 ∧ (idL.map k).isSome) :
    decode_packet idL p
        (encodeVarInt keys.length ++ ((keys.map encodeVarInt).flatten ++ rest))
        offsets =
      (addAll p (((keys.take m).zip (offsets.take m)).map fun kv =>
          ((idL.map kv.1).getD 0, offsetToKey kv.2)),
       some ((encodeVarInt keys.length).length
         + (((keys.take m).map encodeVarInt).flatten).length)) := by
  have hN32 : keys.length < 2 ^ 32 := by
    have : (2 : Nat) ^ 31 ≤ 2 ^ 32 := Nat.pow_le_pow_right (by norm_num) (by norm_num)
    omega
  have hread := readVarInt_encode keys.length hN32
    ((keys.map encodeVarInt).flatten ++ rest)
  have hdrop : (encodeVarInt keys.length ++ ((keys.map encodeVarInt).flatten ++ rest)).drop
      (encodeVarInt keys.length).length = (keys.map encodeVarInt).flatten ++ rest :=
    List.drop_left _ _
  simp only [decode_packet, hread, hdrop]
  -- split the keys at m
  have hksplit : keys = keys.take m ++ keys.drop m := (List.take_append_drop m keys).symm
  have hflat : (keys.map encodeVarInt).flatten
      = ((keys.take m).map encodeVarInt).flatten
        ++ ((keys.drop m).map encodeVarInt).flatten := by
    conv_lhs => rw [hksplit]
    rw [List.map_append, List.flatten_append]
  have hofftake : offsets.take keys.length = offsets.take m := by
    rcases Nat.le_total keys.length offsets.length with hle | hle
    · rw [hm, Nat.min_eq_left hle]
    · rw [List.take_of_length_le hle, hm, Nat.min_eq_right hle, List.take_length]
  have hlens : (keys.take m).length = (offsets.take m).length := by
    rw [List.length_take, List.length_take, hm]
    omega
  have hkeys2 : ∀ k ∈ keys.take m, k < 2 ^ 32 ∧ (idL.map k).isSome :=
    fun k hk => hkeys k (List.take_subset m keys hk)
  have hloop := decodeLoop_encode idL (keys.take m) (offsets.take m) p
    (((keys.drop m).map encodeVarInt).flatten ++ rest)
    (encodeVarInt keys.length).length hlens hkeys2
  rw [hofftake, hflat, List.append_assoc]
  exact hloop

/-! ## Claim theorems -/

/-- C1, counterexample.  The claim says a leading varint entry count that
exceeds the length of the caller-supplied `blockstate_offsets` array aborts
the decode as a fatal error.  In the code the loop
`blockstate_offsets.iter().take(packet_len as usize)` bounds the iteration
by the offsets array instead: on the packet `[2, 5, 6]` (count 2, keys 5
and 6) with a one-element offsets array and an id list resolving every key,
the decode succeeds — it returns bytes consumed `some 2` and has appended
exactly one entry — rather than failing. -/
theorem paletteReadPacket_overlong_count_counterexample :
    (decode_packet ⟨fun k => some (k + 100)⟩ (JavaPalette.new 1)
        [2, 5, 6] [196608]).2 = some 2 ∧
    ((decode_packet ⟨fun k => some (k + 100)⟩ (JavaPalette.new 1)
        [2, 5, 6] [196608]).1).store.length = 1 := by
  constructor
  · rfl
  · rfl

/-- C1, amended.  When the leading varint entry count exceeds the length of
the `blockstate_offsets` array, the decode is silently truncated to the
first offsets-array-length entries: provided the byte stream supplies that
many well-formed, resolvable keys, the decode succeeds, appends exactly
offsets-array-length entries, and reports only the bytes consumed by the
count prefix and those keys. -/
theorem paletteReadPacket_truncates_to_offsets (idL : IdList) (p : JavaPalette)
    (keys offsets rest : List Nat)
    (hlen : offsets.length < keys.length)
    (hcount : keys.length < 2 ^ 31)
    (hkeys : ∀ k ∈ keys, k < 2 ^ 32 ∧ (idL.map k).isSome) :
    ((decode_packet idL p
        (encodeVarInt keys.length ++ ((keys.map encodeVarInt).flatten ++ rest))
        offsets).1).store.length = p.store.length + offsets.length ∧
    (decode_packet idL p
        (encodeVarInt keys.length ++ ((keys.map encodeVarInt).flatten ++ rest))
        offsets).2 = some ((encodeVarInt keys.length).length
          + (((keys.take offsets.length).map encodeVarInt).flatten).length) := by
  have hm : offsets.length = min keys.length offsets.length :=
    (Nat.min_eq_right (Nat.le_of_lt hlen)).symm
  have hd := decode_packet_encode idL p keys offsets rest offsets.length hm
    hcount hkeys
  rw [hd]
  refine ⟨?_, rfl⟩
  rw [addAll_store]
  rw [List.length_append, List.length_map, List.length_zip, List.length_take,
    List.length_take]
  omega

/-- C1, amended, witness at a concrete input: packet count 2, keys 5 and 6,
one offsets element. -/
theorem paletteReadPacket_truncates_to_offsets_witness :
    ((decode_packet ⟨fun k => some (k + 100)⟩ (JavaPalette.new 1)
        (encodeVarInt ([5, 6] : List Nat).length
          ++ (([5, 6] : List Nat).map encodeVarInt).flatten ++ [])
        [196608]).1).store.length = (JavaPalette.new 1).store.length + 1 ∧
    (decode_packet ⟨fun k => some (k + 100)⟩ (JavaPalette.new 1)
        (encodeVarInt ([5, 6] : List Nat).length
          ++ (([5, 6] : List Nat).map encodeVarInt).flatten ++ [])
        [196608]).2 = some ((encodeVarInt ([5, 6] : List Nat).length).length
          + ((([5, 6] : List Nat).take 1).map encodeVarInt).flatten.length) :=
  paletteReadPacket_truncates_to_offsets ⟨fun k => some (k + 100)⟩
    (JavaPalette.new 1) [5, 6] [196608] [] (by decide) (by decide) (by decide)

/-- C3: decoding a well-formed packet — a varint count `N` followed by `N`
varint directory keys, with `N` at most the offsets-array length and every
key resolvable — appends exactly `N` entries in wire order, where the i-th
entry holds the object the i-th key resolves to and a block-state key made
of the high 16 bits (`block`) and low 16 bits (`augment`) of the i-th
`blockstate_offsets` element, and returns exactly the number of bytes
consumed (count prefix plus all encoded keys). -/
theorem paletteReadPacket_wellformed_roundtrip (idL : IdList) (p : JavaPalette)
    (keys offsets rest : List Nat)
    (hlen : keys.length ≤ offsets.length)
    (hcount : keys.length < 2 ^ 31)
    (hkeys : ∀ k ∈ keys, k < 2 ^ 32 ∧ (idL.map k).isSome)
    (hoffs : ∀ o ∈ offsets, o < 2 ^ 32) :
    ((decode_packet idL p
        (encodeVarInt keys.length ++ ((keys.map encodeVarInt).flatten ++ rest))
        offsets).1).store
      = p.store ++ (keys.zip (offsets.take keys.length)).map
          (fun kv => ((idL.map kv.1).getD 0,
            { block := kv.2 / 2 ^ 16, augment := kv.2 % 2 ^ 16 })) ∧
    ((decode_packet idL p
        (encodeVarInt keys.length ++ ((keys.map encodeVarInt).flatten ++ rest))
        offsets).1).store.length = p.store.length + keys.length ∧
    (decode_packet idL p
        (encodeVarInt keys.length ++ ((keys.map encodeVarInt).flatten ++ rest))
        offsets).2
      = some ((encodeVarInt keys.length).length
          + ((keys.map encodeVarInt).flatten).length) := by
  have hm : keys.length = min keys.length offsets.length :=
    (Nat.min_eq_left hlen).symm
  have hd := decode_packet_encode idL p keys offsets rest keys.length hm
    hcount hkeys
  rw [List.take_length] at hd
  rw [hd]
  refine ⟨?_, ?_, rfl⟩
  · rw [addAll_store]
    congr 1
    apply List.map_congr_left
    intro kv hkv
    have h2 : kv.2 ∈ offsets.take keys.length := (List.of_mem_zip hkv).2
    have h3 : kv.2 ∈ offsets := List.take_subset _ _ h2
    rw [offsetToKey_eq kv.2 (hoffs kv.2 h3)]
  · rw [addAll_store, List.length_append, List.length_map, List.length_zip,
      List.length_take]
    omega

/-- C3, witness at a concrete input: two keys against a two-element offsets
array. -/
theorem paletteReadPacket_wellformed_roundtrip_witness :
    ((decode_packet ⟨fun k => some (k + 100)⟩ (JavaPalette.new 1)
        (encodeVarInt ([5, 6] : List Nat).length
          ++ (([5, 6] : List Nat).map encodeVarInt).flatten ++ [])
        [196608, 262145]).1).store
      = (JavaPalette.new 1).store
        ++ (([5, 6] : List Nat).zip (([196608, 262145] : List Nat).take 2)).map
          (fun kv => (((⟨fun k => some (k + 100)⟩ : IdList).map kv.1).getD 0,
            ({ block := kv.2 / 2 ^ 16, augment := kv.2 % 2 ^ 16 } : BlockstateKey))) ∧
    ((decode_packet ⟨fun k => some (k + 100)⟩ (JavaPalette.new 1)
        (encodeVarInt ([5, 6] : List Nat).length
          ++ (([5, 6] : List Nat).map encodeVarInt).flatten ++ [])
        [196608, 262145]).1).store.length = (JavaPalette.new 1).store.length + 2 ∧
    (decode_packet ⟨fun k => some (k + 100)⟩ (JavaPalette.new 1)
        (encodeVarInt ([5, 6] : List Nat).length
          ++ (([5, 6] : List Nat).map encodeVarInt).flatten ++ [])
        [196608, 262145]).2
      = some ((encodeVarInt ([5, 6] : List Nat).length).length
          + ((([5, 6] : List Nat).map encodeVarInt).flatten).length) :=
  paletteReadPacket_wellformed_roundtrip ⟨fun k => some (k + 100)⟩
    (JavaPalette.new 1) [5, 6] [196608, 262145] []
    (by decide) (by decide) (by decide) (by decide)

/-- C4: for every run of `index` calls on a freshly created (or cleared —
`clear` restores the fresh state) palette, `size` equals the number of
distinct block-state keys inserted; writing the run as `l1 ++ e0 :: l2`
where `e0` is the first call with its key, any later `index` call `e` with
the same key leaves the palette unmutated and returns exactly the position
that `e0`'s call returned. -/
theorem palette_index_dedup (idL : Nat)
    (l1 l2 : List (GlobalRef × BlockstateKey)) (e0 e : GlobalRef × BlockstateKey)
    (hfirst : e0.2 ∉ l1.map Prod.snd) (hkey : e.2 = e0.2) :
    (∀ es : List (GlobalRef × BlockstateKey),
      (indexAll (JavaPalette.new idL) es).size = (es.map Prod.snd).toFinset.card) ∧
    ((indexAll (JavaPalette.new idL) (l1 ++ e0 :: l2)).index e).1
      = indexAll (JavaPalette.new idL) (l1 ++ e0 :: l2) ∧
    ((indexAll (JavaPalette.new idL) (l1 ++ e0 :: l2)).index e).2
      = ((indexAll (JavaPalette.new idL) l1).index e0).2 ∧
    (∀ q : JavaPalette, q.clear = JavaPalette.new q.id_list) := by
  have hsize : ∀ es : List (GlobalRef × BlockstateKey),
      (indexAll (JavaPalette.new idL) es).size = (es.map Prod.snd).toFinset.card := by
    intro es
    obtain ⟨hstore, _, _⟩ := indexAll_spec es (JavaPalette.new idL) (fun k => rfl)
    rw [show List.map Prod.snd (JavaPalette.new idL).store = [] from rfl] at hstore
    have hlen : (indexAll (JavaPalette.new idL) es).size
        = (distinctAppend [] (es.map Prod.snd)).length := by
      rw [JavaPalette.size, ← hstore, List.length_map]
    have hnd := distinctAppend_nodup [] (es.map Prod.snd) List.nodup_nil
    have hfin : (distinctAppend [] (es.map Prod.snd)).toFinset
        = (es.map Prod.snd).toFinset := by
      ext x
      simp [List.mem_toFinset, distinctAppend_mem]
    rw [hlen, ← List.toFinset_card_of_nodup hnd, hfin]
  obtain ⟨hstoreP, hindP, _⟩ :=
    indexAll_spec (l1 ++ e0 :: l2) (JavaPalette.new idL) (fun k => rfl)
  obtain ⟨hstore1, hind1, _⟩ := indexAll_spec l1 (JavaPalette.new idL) (fun k => rfl)
  rw [show List.map Prod.snd (JavaPalette.new idL).store = [] from rfl] at hstoreP hstore1
  have hA0 : e0.2 ∉ distinctAppend [] (l1.map Prod.snd) := by
    intro h
    rcases (distinctAppend_mem [] (l1.map Prod.snd) e0.2).mp h with h | h
    · exact absurd h (List.not_mem_nil _)
    · exact hfirst h
  have hD : distinctAppend [] ((l1 ++ e0 :: l2).map Prod.snd)
      = distinctAppend (distinctAppend [] (l1.map Prod.snd) ++ [e0.2])
        (l2.map Prod.snd) := by
    rw [List.map_append, distinctAppend_append, List.map_cons,
      distinctAppend_cons, if_neg hA0]
  obtain ⟨t, ht⟩ := distinctAppend_exists_suffix
    (distinctAppend [] (l1.map Prod.snd) ++ [e0.2]) (l2.map Prod.snd)
  have hfi : firstIdxOf (distinctAppend [] ((l1 ++ e0 :: l2).map Prod.snd)) e0.2
      = some (distinctAppend [] (l1.map Prod.snd)).length := by
    rw [hD, ht, firstIdxOf_append,
      firstIdxOf_concat_self (distinctAppend [] (l1.map Prod.snd)) e0.2 hA0]
  have hlookP : lookupKey (indexAll (JavaPalette.new idL) (l1 ++ e0 :: l2)).indices e.2
      = some (distinctAppend [] (l1.map Prod.snd)).length := by
    rw [hindP, hstoreP, hkey, hfi]
  have hPidx : (indexAll (JavaPalette.new idL) (l1 ++ e0 :: l2)).index e
      = (indexAll (JavaPalette.new idL) (l1 ++ e0 :: l2),
         (distinctAppend [] (l1.map Prod.snd)).length) := by
    simp [JavaPalette.index, hlookP]
  have hlook1 : lookupKey (indexAll (JavaPalette.new idL) l1).indices e0.2 = none := by
    rw [hind1, hstore1, (firstIdxOf_eq_none_iff _ e0.2).mpr hA0]
  have h1idx : ((indexAll (JavaPalette.new idL) l1).index e0).2
      = (indexAll (JavaPalette.new idL) l1).store.length := by
    simp [JavaPalette.index, hlook1]
  have hlen1 : (indexAll (JavaPalette.new idL) l1).store.length
      = (distinctAppend [] (l1.map Prod.snd)).length := by
    have h := congrArg List.length hstore1
    rw [List.length_map] at h
    exact h
  refine ⟨hsize, ?_, ?_, fun q => rfl⟩
  · rw [hPidx]
  · rw [hPidx, h1idx, hlen1]

/-- C4, witness at a concrete input: the run `[(7, 3/0), (9, 4/1)]` with a
repeated `index` call for key `4/1`. -/
theorem palette_index_dedup_witness :
    (∀ es : List (GlobalRef × BlockstateKey),
      (indexAll (JavaPalette.new 1) es).size = (es.map Prod.snd).toFinset.card) ∧
    ((indexAll (JavaPalette.new 1)
        ([(7, ⟨3, 0⟩)] ++ (9, ⟨4, 1⟩) :: [])).index (8, ⟨4, 1⟩)).1
      = indexAll (JavaPalette.new 1) ([(7, ⟨3, 0⟩)] ++ (9, ⟨4, 1⟩) :: []) ∧
    ((indexAll (JavaPalette.new 1)
        ([(7, ⟨3, 0⟩)] ++ (9, ⟨4, 1⟩) :: [])).index (8, ⟨4, 1⟩)).2
      = ((indexAll (JavaPalette.new 1) [(7, ⟨3, 0⟩)]).index (9, ⟨4, 1⟩)).2 ∧
    (∀ q : JavaPalette, q.clear = JavaPalette.new q.id_list) :=
  palette_index_dedup 1 [(7, ⟨3, 0⟩)] [] (9, ⟨4, 1⟩) (8, ⟨4, 1⟩)
    (by decide) rfl

/-- C5: for every run of `add` calls on a freshly created (or cleared —
`clear` restores the fresh state) palette, `size` equals the total number
of calls with duplicates included, the store retains every appended entry
in call order, and the index mapping records for each key the position of
its most recent `add` (last write wins). -/
theorem palette_add_last_write_wins (idL : Nat)
    (es : List (GlobalRef × BlockstateKey)) :
    (addAll (JavaPalette.new idL) es).size = es.length ∧
    (addAll (JavaPalette.new idL) es).store = es ∧
    (∀ k, lookupKey (addAll (JavaPalette.new idL) es).indices k
        = lastIdxOf (es.map Prod.snd) k) ∧
    (∀ q : JavaPalette, q.clear = JavaPalette.new q.id_list) := by
  refine ⟨?_, ?_, ?_, fun q => rfl⟩
  · rw [JavaPalette.size, addAll_store]
    simp [JavaPalette.new]
  · rw [addAll_store]
    simp [JavaPalette.new]
  · intro k
    rw [addAll_lookup]
    cases h : lastIdxOf (es.map Prod.snd) k with
    | some j => simp [JavaPalette.new]
    | none => rfl

/-- C6: `get` on a non-empty palette returns the entry at the requested
position when it is in bounds and falls back to the entry at position 0
when it is out of bounds, always yielding an entry; `get` on an empty
palette yields no entry for any position (the JNI wrapper `paletteGet`
panics on that `None`). -/
theorem palette_get_fallback (p : JavaPalette) (i : Nat) :
    (p.size ≠ 0 →
      (i < p.size → p.get i = p.store[i]?) ∧
      (p.size ≤ i → p.get i = p.store[0]?) ∧ (p.get i).isSome) ∧
    (p.size = 0 → p.get i = none) := by
  constructor
  · intro hne
    have h0 : 0 < p.store.length := Nat.pos_of_ne_zero hne
    have hin : ∀ hi : i < p.store.length, p.get i = p.store[i]? := by
      intro hi
      rw [JavaPalette.get, List.getElem?_eq_getElem hi]
      rfl
    have hout : p.store.length ≤ i → p.get i = p.store[0]? := by
      intro hi
      rw [JavaPalette.get, List.getElem?_eq_none hi]
      rfl
    refine ⟨hin, hout, ?_⟩
    by_cases hi : i < p.store.length
    · rw [hin hi, List.getElem?_eq_getElem hi]
      rfl
    · rw [hout (Nat.le_of_not_lt hi), List.getElem?_eq_getElem h0]
      rfl
  · intro h0
    have hs : p.store = [] := List.length_eq_zero.mp h0
    rw [JavaPalette.get, hs]
    rfl

/-- C6, witness at concrete inputs: a one-entry palette queried in bounds
and out of bounds, and the empty palette. -/
theorem palette_get_fallback_witness :
    (((JavaPalette.new 1).add (7, ⟨3, 0⟩)).size ≠ 0 ∧
      (0 < ((JavaPalette.new 1).add (7, ⟨3, 0⟩)).size →
        ((JavaPalette.new 1).add (7, ⟨3, 0⟩)).get 0
          = ((JavaPalette.new 1).add (7, ⟨3, 0⟩)).store[0]?) ∧
      (((JavaPalette.new 1).add (7, ⟨3, 0⟩)).size ≤ 5 →
        ((JavaPalette.new 1).add (7, ⟨3, 0⟩)).get 5
          = ((JavaPalette.new 1).add (7, ⟨3, 0⟩)).store[0]?)) ∧
    (JavaPalette.new 1).get 4 = none := by
  refine ⟨⟨by decide, ?_, ?_⟩, ?_⟩
  · exact fun h =>
      ((palette_get_fallback ((JavaPalette.new 1).add (7, ⟨3, 0⟩)) 0).1
        (by decide)).1 h
  · exact fun h =>
      (((palette_get_fallback ((JavaPalette.new 1).add (7, ⟨3, 0⟩)) 5).1
        (by decide)).2).1 h
  · exact (palette_get_fallback (JavaPalette.new 1) 4).2 (by decide)

/-- C10: after `add` appends a duplicate of a key already present in the
store, a subsequent `index` call with that key appends nothing and returns
the position recorded by that most recent `add` — which is strictly larger
than the key's first-occurrence position, so it is not the position of the
first occurrence. -/
theorem palette_index_after_duplicate_add (p : JavaPalette)
    (e e2 : GlobalRef × BlockstateKey)
    (hkey : e2.2 = e.2) (hmem : e.2 ∈ p.store.map Prod.snd) :
    ((p.add e).index e2).1 = p.add e ∧
    ((p.add e).index e2).2 = p.store.length ∧
    (∃ j, firstIdxOf (p.store.map Prod.snd) e.2 = some j
      ∧ j < ((p.add e).index e2).2) := by
  have hlook : lookupKey (p.add e).indices e2.2 = some p.store.length := by
    show (if e.2 = e2.2 then some p.store.length
        else lookupKey p.indices e2.2) = some p.store.length
    rw [if_pos hkey.symm]
  have hidx : (p.add e).index e2 = (p.add e, p.store.length) := by
    simp [JavaPalette.index, hlook]
  refine ⟨by rw [hidx], by rw [hidx], ?_⟩
  cases hfi : firstIdxOf (p.store.map Prod.snd) e.2 with
  | none => exact absurd hmem ((firstIdxOf_eq_none_iff _ _).mp hfi)
  | some j =>
      refine ⟨j, rfl, ?_⟩
      rw [hidx]
      have hlt := firstIdxOf_lt_length _ _ _ hfi
      simpa using hlt

/-- C10, witness at a concrete input: key `3/0` first inserted by `index`,
duplicated by `add`, then queried by `index`. -/
theorem palette_index_after_duplicate_add_witness :
    ((((JavaPalette.new 1).add (7, ⟨3, 0⟩)).add (8, ⟨3, 0⟩)).index (9, ⟨3, 0⟩)).1
      = ((JavaPalette.new 1).add (7, ⟨3, 0⟩)).add (8, ⟨3, 0⟩) ∧
    ((((JavaPalette.new 1).add (7, ⟨3, 0⟩)).add (8, ⟨3, 0⟩)).index (9, ⟨3, 0⟩)).2
      = ((JavaPalette.new 1).add (7, ⟨3, 0⟩)).store.length ∧
    (∃ j, firstIdxOf (((JavaPalette.new 1).add (7, ⟨3, 0⟩)).store.map Prod.snd) ⟨3, 0⟩
        = some j
      ∧ j < ((((JavaPalette.new 1).add (7, ⟨3, 0⟩)).add (8, ⟨3, 0⟩)).index
          (9, ⟨3, 0⟩)).2) :=
  palette_index_after_duplicate_add ((JavaPalette.new 1).add (7, ⟨3, 0⟩))
    (8, ⟨3, 0⟩) (9, ⟨3, 0⟩) rfl (by decide)

/-- C8: the structural invariant — every key in `indices` points at a valid
store position carrying that key, and every store entry's key is present in
`indices` — holds of a fresh palette and is preserved by every palette
operation (`index`, `add`, `clear`, `copy`, `decode_packet`). -/
theorem palette_ops_preserve_invariant :
    (∀ idL, PaletteInv (JavaPalette.new idL)) ∧
    (∀ (op : PaletteOp) (p : JavaPalette),
      PaletteInv p → PaletteInv (applyOp op p)) := by
  refine ⟨paletteInv_new, ?_⟩
  intro op p h
  cases op with
  | index e => exact paletteInv_index p e h
  | add e => exact paletteInv_add p e h
  | clear => exact paletteInv_clear p
  | copy => exact h
  | decodePacket idL bytes offsets => exact paletteInv_decode idL p bytes offsets h

/-- C8, witness at a concrete input: the invariant after an `add` on a fresh
palette. -/
theorem palette_ops_preserve_invariant_witness :
    PaletteInv (applyOp (.add (5, ⟨1, 2⟩)) (JavaPalette.new 1)) :=
  palette_ops_preserve_invariant.2 (.add (5, ⟨1, 2⟩)) (JavaPalette.new 1)
    (palette_ops_preserve_invariant.1 1)

/-- C7: `copyPalette` on a live handle clones the palette value into a
fresh slab slot: the new handle differs from the source handle, the copy
has the very same store and index (hence equal `size` and equal entries at
every position), and any in-place mutation applied at the one handle leaves
the palette read through the other handle unchanged. -/
theorem palette_copy_independent (s : PaletteSlab) (h : Nat) (p : JavaPalette)
    (hs : slabGet s h = some p) :
    ∃ s2 k, copyPalette s h = some (s2, k) ∧
      k ≠ h ∧
      slabGet s2 k = some p ∧
      slabGet s2 h = some p ∧
      (∀ f, slabGet (slabModifyAt s2 k f) h = some p) ∧
      (∀ f, slabGet (slabModifyAt s2 h f) k = some p) := by
  obtain ⟨h1, h2, h3⟩ := slabInsert_spec s p
  have hkh : h ≠ (slabInsert s p).2 := by
    intro hk
    rw [← hk, hs] at h2
    exact Option.noConfusion h2
  refine ⟨(slabInsert s p).1, (slabInsert s p).2, ?_, fun hk => hkh hk.symm,
    h1, ?_, ?_, ?_⟩
  · simp [copyPalette, hs]
  · rw [h3 h hkh, hs]
  · intro f
    rw [slabModifyAt_get_other _ _ _ _ hkh, h3 h hkh, hs]
  · intro f
    rw [slabModifyAt_get_other _ _ _ _ (fun hk => hkh hk.symm), h1]

/-- C7, witness at a concrete input: copying the palette at handle 0 of a
one-slot registry. -/
theorem palette_copy_independent_witness :
    ∃ s2 k, copyPalette [some (JavaPalette.new 1)] 0 = some (s2, k) ∧
      k ≠ 0 ∧
      slabGet s2 k = some (JavaPalette.new 1) ∧
      slabGet s2 0 = some (JavaPalette.new 1) ∧
      (∀ f, slabGet (slabModifyAt s2 k f) 0 = some (JavaPalette.new 1)) ∧
      (∀ f, slabGet (slabModifyAt s2 0 f) k = some (JavaPalette.new 1)) :=
  palette_copy_independent [some (JavaPalette.new 1)] 0 (JavaPalette.new 1)
    (by decide)

/-- C9: replaying a fixed command sequence against two independent render
passes appends the same ordered sequence of backend calls to both passes,
and that sequence is the in-order concatenation of the calls each recorded
entry emits. -/
theorem render_replay_deterministic (env : RenderEnv) (cmds : List GLCommand)
    (pass1 pass2 out1 out2 : List BackendCall)
    (h1 : renderCommands env cmds pass1 = some out1)
    (h2 : renderCommands env cmds pass2 = some out2) :
    ∃ calls, out1 = pass1 ++ calls ∧ out2 = pass2 ++ calls ∧
      calls = (cmds.map fun c => (processCommand env c []).getD []).flatten :=
  ⟨(cmds.map fun c => (processCommand env c []).getD []).flatten,
    renderCommands_emits env cmds pass1 out1 h1,
    renderCommands_emits env cmds pass2 out2 h2, rfl⟩

/-- C9, witness at a concrete input: a pipeline select followed by a draw,
replayed against an empty pass and against a pass with prior calls. -/
theorem render_replay_deterministic_witness :
    ∃ calls, [BackendCall.setPipeline "pos_tex", .draw 3 1] = [] ++ calls ∧
      [BackendCall.setPipeline "clearcolor", .setPipeline "pos_tex", .draw 3 1]
        = [BackendCall.setPipeline "clearcolor"] ++ calls ∧
      calls = (([GLCommand.usePipeline 1, .draw 3]).map fun c =>
        (processCommand
          ⟨fun _ => true, fun _ => none, some 7, fun _ => true⟩ c []).getD []).flatten :=
  render_replay_deterministic
    ⟨fun _ => true, fun _ => none, some 7, fun _ => true⟩
    [GLCommand.usePipeline 1, .draw 3]
    [] [BackendCall.setPipeline "clearcolor"]
    [BackendCall.setPipeline "pos_tex", .draw 3 1]
    [BackendCall.setPipeline "clearcolor", .setPipeline "pos_tex", .draw 3 1]
    rfl rfl

/-- C2, counterexample.  The claim says replay binds the black fallback and
never fails both when the texture-unit identifier is unbound and when the
bound unit holds no texture.  In the code the arm
`Some(tx) => tx.bindable_texture.as_ref().unwrap()` panics when the bound
unit holds no texture: with unit 0 bound to a `GlTexture` whose
`bindable_texture` is `None` (and the black fallback present), replaying
`AttachTexture(0)` aborts (`none`) instead of binding the fallback. -/
theorem render_attach_texture_counterexample :
    processCommand
      ⟨fun _ => true,
       fun t => if t = 0 then some { bindable_texture := none } else none,
       some 7, fun _ => true⟩
      (.attachTexture 0) [] = none := by
  rfl

/-- C2, amended.  For an `attach-texture` entry: if the identifier is not
bound in the texture directory and the black fallback has been created,
replay binds the fallback to bind-group slot 1 and succeeds; if the bound
unit holds no texture, replay fails (panics) rather than falling back; if
the bound unit holds a texture, that texture is bound to slot 1. -/
theorem render_attach_texture_fallback (env : RenderEnv) (t : Int)
    (pass : List BackendCall) :
    (∀ b, env.glAlloc t = none → env.blackTexture = some b →
      processCommand env (.attachTexture t) pass
        = some (pass ++ [.setBindGroup 1 (.texture b)])) ∧
    (∀ tx, env.glAlloc t = some tx → tx.bindable_texture = none →
      processCommand env (.attachTexture t) pass = none) ∧
    (∀ tx b, env.glAlloc t = some tx → tx.bindable_texture = some b →
      processCommand env (.attachTexture t) pass
        = some (pass ++ [.setBindGroup 1 (.texture b)])) := by
  refine ⟨?_, ?_, ?_⟩
  · intro b ha hb
    simp [processCommand, ha, hb]
  · intro tx ha hb
    simp [processCommand, ha, hb]
  · intro tx b ha hb
    simp [processCommand, ha, hb]

/-- C2, amended, witness at concrete inputs: an unbound identifier with the
fallback present, and a bound unit holding no texture. -/
theorem render_attach_texture_fallback_witness :
    processCommand
      ⟨fun _ => true, fun _ => none, some 7, fun _ => true⟩
      (.attachTexture 3) [] = some ([] ++ [.setBindGroup 1 (.texture 7)]) ∧
    processCommand
      ⟨fun _ => true,
       fun t => if t = 0 then some { bindable_texture := none } else none,
       some 7, fun _ => true⟩
      (.attachTexture 0) [] = none :=
  ⟨(render_attach_texture_fallback
      ⟨fun _ => true, fun _ => none, some 7, fun _ => true⟩ 3 []).1
      7 rfl rfl,
   ((render_attach_texture_fallback
      ⟨fun _ => true,
       fun t => if t = 0 then some { bindable_texture := none } else none,
       some 7, fun _ => true⟩ 0 []).2).1
      { bindable_texture := none } (by decide) rfl⟩
